import Mathlib

/- Shallow embedding of `src/util/numeric.cpp`: the `Factors` and
`ResidualFactors` enumerators and the miscellaneous helpers
`SmallestFactor` and `GetTiling`.  Machine `unsigned long` values are
modelled as `Nat`.  The one place where unsigned wraparound is actually
reachable — the digit `vr[j-1] - 1` of `EquationSolver_`, which the plain
constructor's spliced zero factor drives to `0 - 1` — is modelled with
the explicitly wrapping `digitSub`; elsewhere, on the inputs the theorems
below consider, the embedded arithmetic never overflows 64 bits, so no
modular reduction is needed.  The two C++ `while` loops of `ISqrt_` are
modelled with an explicit fuel of 32: `one` starts at `2^30` and is
divided by 4 each iteration, so each loop runs at most 16 times and the
fuel is never exhausted. -/

namespace Numeric

/-- First loop of `Factors::ISqrt_` (and of the identical
`ResidualFactors::ISqrt_`): `one = 1 << 30; while (one > op) one >>= 2;`. -/
def iSqrtShift : Nat → Nat → Nat → Nat
  | 0, _, one => one
  | fuel + 1, op, one => if op < one then iSqrtShift fuel op (one / 4) else one

/-- Second loop of `ISqrt_`: the binary-digit square-root loop.
`res >>= 1` and `one >>= 2` are exact halvings/quarterings here. -/
def iSqrtLoop : Nat → Nat → Nat → Nat → Nat
  | 0, _, res, _ => res
  | fuel + 1, op, res, one =>
    if one = 0 then res
    else if res + one ≤ op then
      iSqrtLoop fuel (op - (res + one)) ((res + 2 * one) / 2) (one / 4)
    else
      iSqrtLoop fuel op (res / 2) (one / 4)

/-- `Factors::ISqrt_` / `ResidualFactors::ISqrt_` (textually identical
functions).  `one` starts at `1 << 30`, which makes the routine a 32-bit
integer square root even though the argument is 64-bit. -/
def iSqrt (x : Nat) : Nat := iSqrtLoop 32 x 0 (iSqrtShift 32 x (2 ^ 30))

/-- `Factors::CalculateAllFactors_`: trial division with `i` running from 1
to `ISqrt_(n_)`, pushing `i` and, when `i * i != n_`, also `n_ / i`, into a
vector.  `allFactorsAux n b` is the vector after the iterations `i = 1 .. b`. -/
def allFactorsAux (n : Nat) : Nat → List Nat
  | 0 => []
  | b + 1 =>
    allFactorsAux n b ++
      (if n % (b + 1) = 0 then
        if (b + 1) * (b + 1) ≠ n then [b + 1, n / (b + 1)] else [b + 1]
      else [])

/-- The full `all_factors_` vector of a `Factors` instance. -/
def allFactors (n : Nat) : List Nat := allFactorsAux n (iSqrt n)

/-- `Factors::MultiplicativeSplitRecursive_(n, order)` over the factor pool
`af` (= the instance's `all_factors_`).  A factor is skipped unless the
current residual is divisible by it; the factor is appended at the end of
every tuple returned by the recursive call. -/
def multiplicativeSplit (af : List Nat) : Nat → Nat → List (List Nat)
  | _, 0 => [[]]
  | n, 1 => [[n]]
  | n, order + 2 =>
    af.flatMap fun f =>
      if n % f = 0 then
        (multiplicativeSplit af (n / f) (order + 1)).map fun v => v ++ [f]
      else []

/-- The `cofactors_` collection built by `Factors::Factors(n, order)`. -/
def factorsCofactors (n order : Nat) : List (List Nat) :=
  multiplicativeSplit (allFactors n) n order

/-- The validation loop of `Factors::Factors(n, order, given)` (and the
identical loop of the given-assignment `ResidualFactors` constructor).
The `std::map` is iterated in ascending key order, modelled as a sorted
association list.  An entry whose value (times the running partial
product) does not divide `n` is dropped via `f = given.erase(f)`; the
loop header then increments `f` again, so the entry after a dropped one
is KEPT without being validated or multiplied into the partial product.
When the dropped entry is the last one, the loop increments the `end()`
iterator (undefined behaviour in C++); the model ends the loop there.
Returns (surviving entries, partial product). -/
def validateGiven (n : Nat) : List (Nat × Nat) → Nat → List (Nat × Nat) × Nat
  | [], pp => ([], pp)
  | iv :: rest, pp =>
    if n % (iv.2 * pp) = 0 then
      let r := validateGiven n rest (pp * iv.2)
      (iv :: r.1, r.2)
    else
      match rest with
      | [] => ([], pp)
      | jw :: rest2 =>
        let r := validateGiven n rest2 pp
        (jw :: r.1, r.2)

/-- The splicing loop: for each surviving entry `(index, value)` in
ascending key order, `cofactors.insert(cofactors.begin() + index, value)`. -/
def spliceAll (given : List (Nat × Nat)) (t : List Nat) : List Nat :=
  given.foldl (fun acc iv => acc.insertIdx iv.1 iv.2) t

/-- The `cofactors_` collection built by `Factors::Factors(n, order, given)`:
validate the given map, enumerate the remaining `order - |given|` positions
over residual `n / partial_product`, then splice the surviving given values
back in. -/
def factorsGiven (n order : Nat) (given : List (Nat × Nat)) : List (List Nat) :=
  let v := validateGiven n given 1
  (multiplicativeSplit (allFactors n) (n / v.2) (order - v.1.length)).map
    (spliceAll v.1)

/-- The inner loop of `Factors::PruneMax`: a tuple is illegal when some
`(index, max)` entry of the map has `tuple.at(index) > max`. -/
def illegalTuple (maxs : List (Nat × Nat)) (t : List Nat) : Bool :=
  maxs.any fun im => im.2 < t.getD im.1 0

/-- `Factors::PruneMax`: the erase-as-you-iterate loop over `cofactors_`. -/
def pruneMax (maxs : List (Nat × Nat)) : List (List Nat) → List (List Nat)
  | [] => []
  | t :: rest =>
    if illegalTuple maxs t then pruneMax maxs rest else t :: pruneMax maxs rest

/-- Insertion into a `std::set<unsigned long>` modelled as a sorted
duplicate-free list. -/
def setInsert (a : Nat) : List Nat → List Nat
  | [] => [a]
  | b :: bs =>
    if a < b then a :: b :: bs else if a = b then b :: bs else b :: setInsert a bs

/-- `ResidualFactors::CalculateAllFactors_`: same trial division as
`Factors`, but inserting into the `std::set` `all_factors_`. -/
def rfAllFactors (n : Nat) : List Nat :=
  (List.range' 1 (iSqrt n)).foldl
    (fun s i =>
      if n % i = 0 then
        if i * i ≠ n then setInsert (n / i) (setInsert i s) else setInsert i s
      else s)
    []

/-- `ResidualFactors::CalculateSpatialFactors_`: for every `w` in
`1 .. bound` for every spatial bound, let `g = w * n_ * ceil(n_ / w)` and
insert every divisor `i <= n_` of `g` with `i < n_` (and `g / i` when
`i * i != g` and `g / i < n_`) into `all_factors_`.  The C++ computes the
ceiling in `double` arithmetic, exact on the modelled range:
`ceil(n / w) = (n + w - 1) / w` for `w >= 1`. -/
def rfSpatialWiden (n : Nat) (spatial : List Nat) (s0 : List Nat) : List Nat :=
  (spatial.flatMap fun b => List.range' 1 b).foldl
    (fun s w =>
      (List.range' 1 n).foldl
        (fun s2 i =>
          if w * n * ((n + w - 1) / w) % i = 0 then
            if i * i ≠ w * n * ((n + w - 1) / w) then
              (if w * n * ((n + w - 1) / w) / i < n then
                setInsert (w * n * ((n + w - 1) / w) / i)
                  (if i < n then setInsert i s2 else s2)
              else (if i < n then setInsert i s2 else s2))
            else (if i < n then setInsert i s2 else s2)
          else s2)
        s)
    s0

/-- The full `all_factors_` set of a `ResidualFactors` instance
(`ClearAllFactors_`, `CalculateAllFactors_`, `CalculateSpatialFactors_`). -/
def rfPool (n : Nat) (spatial : List Nat) : List Nat :=
  rfSpatialWiden n spatial (rfAllFactors n)

/-- `ResidualFactors::cart_product`: left fold, extending every partial
tuple by every element of the next list. -/
def cartProduct (v : List (List Nat)) : List (List Nat) :=
  v.foldl (fun s u => s.flatMap fun x => u.map fun y => x ++ [y]) [[]]

/-- The candidate threshold `(unsigned)(pow((double)n_, 1.0/2.0) + 1.5)` of
`GenerateFactorProduct_`.  In exact arithmetic this is `⌊√n + 3/2⌋ =
(⌊√(4n)⌋ + 3) / 2`; `iSqrt` computes `⌊√·⌋` on the range where the double
computation is itself exact. -/
def rfThreshold (n : Nat) : Nat := (iSqrt (4 * n) + 3) / 2

/-- The per-position candidate filter of `GenerateFactorProduct_`: position
`i` of rotation `rot` admits pool element `a` when (i) `i = 0` in the first
rotation, or (ii) `a` is small (`<= threshold`) and `i > 0`, or (iii) in a
later rotation, `i = 0` and `a` is large (`>= threshold`). -/
def rfFilterCond (nMember rot i a : Nat) : Bool :=
  if i = 0 ∧ rot = 0 then true
  else if a ≤ rfThreshold nMember ∧ 0 < i then true
  else if 0 < rot ∧ i = 0 ∧ rfThreshold nMember ≤ a then true
  else false

/-- `std::swap(inter_factors[0], inter_factors[rot])`. -/
def swapHead (rot : Nat) (l : List (List Nat)) : List (List Nat) :=
  (l.set rot (l.getD 0 [])).set 0 (l.getD rot [])

/-- The generation loop of `ResidualFactors::GenerateFactorProduct_`: one
Cartesian-product pass per rotation `rot = 0 .. order-1`, accumulated into
`replicated_factors_`.  The threshold uses the member `n_`. -/
def rfReplicated (nMember : Nat) (pool : List Nat) (order : Nat) : List (List Nat) :=
  (List.range order).flatMap fun rot =>
    cartProduct
      (swapHead rot ((List.range order).map fun i => pool.filter (rfFilterCond nMember rot i)))

/-- The admissibility measure of the final prune of
`GenerateFactorProduct_`: the product of `p - 1` over entries `p ≠ 1`. -/
def rfPruneProd (t : List Nat) : Nat :=
  t.foldl (fun pr p => if p ≠ 1 then pr * (p - 1) else pr) 1

/-- `pruned_product_factors_`: replicated tuples whose admissibility
measure does not exceed the function parameter `n`. -/
def rfPrunedProduct (nMember : Nat) (pool : List Nat) (nParam order : Nat) :
    List (List Nat) :=
  (rfReplicated nMember pool order).filter fun t => rfPruneProd t ≤ nParam

/-- `ResidualFactors::GenerateResidual_`: the Cartesian product of
`[1 .. bound]` over the spatial bounds, filtered to tuples whose sum is at
most `n + order`. -/
def rfPrunedResidual (nParam order : Nat) (spatial : List Nat) : List (List Nat) :=
  (cartProduct (spatial.map fun b => List.range' 1 b)).filter
    fun t => t.sum ≤ nParam + order

/-- The residual-vector construction inside `EquationSolver_`: walk the
positions of `f`; a position listed in `spatial_ix_` takes the next entry
of the residual candidate `r` (and checks `f` against the spatial bound),
any other position takes `f`'s own value.  `s` is the running `s_i`. -/
def buildVRAux (sIx sBound f r : List Nat) :
    List Nat → Nat → Bool → List Nat × Bool
  | [], _, valid => ([], valid)
  | i :: rest, s, valid =>
    if i ∈ sIx then
      let p := buildVRAux sIx sBound f r rest (s + 1)
        (valid && !(sBound.getD s 0 < f.getD i 0))
      (r.getD s 0 :: p.1, p.2)
    else
      let p := buildVRAux sIx sBound f r rest s valid
      (f.getD i 0 :: p.1, p.2)

/-- The `valid_residual_factors` vector and the spatial part of the `valid`
flag for one `(f, r)` candidate. -/
def buildVR (sIx sBound f r : List Nat) : List Nat × Bool :=
  buildVRAux sIx sBound f r (List.range f.length) 0 true

/-- The unsigned 64-bit subtraction `x - 1` of `EquationSolver_`'s digit.
On the machine domain `x < 2^64` this is exactly
`(x + (2^64 - 1)) % 2^64`: `x - 1` for `x ≥ 1`, wrapping to `2^64 - 1`
for `x = 0`.  The wrap is reachable: the plain constructor splices a zero
factor (see `rfRetained`), making `vr[0] = 0` whenever position 0 is not
spatial. -/
def digitSub (x : Nat) : Nat := if x = 0 then 2 ^ 64 - 1 else x - 1

/-- The mixed-radix evaluation loop of `EquationSolver_`:
`equation_answer = f[j-1] * equation_answer + (vr[j-1] - 1)` for `j`
running from `f.size()` down to 1 (position 0 is least significant).  The
digit subtraction is modelled modulo `2^64` (`digitSub`); the
accumulation itself stays exact on the domains the theorems consider —
in particular, on the plain-constructor path the spliced zero factor at
position 0 multiplies the accumulator away in the final step, so the
model's retention decisions there agree with the wrapping C++ ones for
every `n < 2^64`. -/
def hornerEq (f vr : List Nat) : Nat :=
  (f.zip vr).foldr (fun p acc => p.1 * acc + digitSub p.2) 0

/-- One `(f, r)` candidate check of `EquationSolver_`: the pair is retained
when the spatial-bound checks passed, no position has `f < vr`, and the
mixed-radix value satisfies `equation_answer + 1 == n`.  Returns the
stored residual vector on success. -/
def solverCheck (n : Nat) (sIx sBound : List Nat) (f r : List Nat) :
    Option (List Nat) :=
  let v := buildVR sIx sBound f r
  let ok := v.2 && (f.zip v.1).all fun p => !(p.1 < p.2)
  if hornerEq f v.1 + 1 = n ∧ ok = true then some v.1 else none

/-- `ResidualFactors::EquationSolver_`: splice the given factors into every
pruned factor tuple, then scan the full Cartesian product of factor
candidates (outer) and residual candidates (inner), appending each
successful `(f, valid_residual_factors)` pair. -/
def equationSolver (n : Nat) (given : List (Nat × Nat))
    (prunedP prunedR : List (List Nat)) (sIx sBound : List Nat) :
    List (List Nat × List Nat) :=
  (prunedP.map (spliceAll given)).flatMap fun f =>
    prunedR.filterMap fun r => (solverCheck n sIx sBound f r).map fun vr => (f, vr)

/-- The pairs retained by `ResidualFactors(n, order, spatial,
spatial_indices)` BEFORE the constructor's final reversal.  The
constructor builds `std::map<unsigned, unsigned long> given = {{}};` —
in C++ this is NOT an empty map: `{{}}` is an initializer list holding
one value-initialized pair, i.e. the map `{(0, 0)}` — so
`EquationSolver_` splices the factor 0 at position 0 of every candidate
tuple (which, as `rfRetained_nil` proves, kills every candidate for
`n < 2^64`). -/
def rfRetained (n order : Nat) (spatial sIx : List Nat) :
    List (List Nat × List Nat) :=
  equationSolver n [(0, 0)] (rfPrunedProduct n (rfPool n spatial) n order)
    (rfPrunedResidual n order spatial) sIx spatial

/-- The stored collection of `ResidualFactors(n, order, spatial,
spatial_indices)`: the constructor reverses both tuples of every pair. -/
def residualFactorsPairs (n order : Nat) (spatial sIx : List Nat) :
    List (List Nat × List Nat) :=
  (rfRetained n order spatial sIx).map fun p => (p.1.reverse, p.2.reverse)

/-- The pairs retained by the given-assignment constructor
`ResidualFactors(n, order, spatial, spatial_indices, given)`: the pools use
the member `n_ = n`, generation and the residual prune use
`n / partial_product` and `order - |given|`, and `EquationSolver_` splices
the surviving given entries and checks the equation against the full `n`. -/
def rfRetainedGiven (n order : Nat) (spatial sIx : List Nat)
    (given : List (Nat × Nat)) : List (List Nat × List Nat) :=
  let v := validateGiven n given 1
  equationSolver n v.1
    (rfPrunedProduct n (rfPool n spatial) (n / v.2) (order - v.1.length))
    (rfPrunedResidual (n / v.2) (order - v.1.length) spatial) sIx spatial

/-- The stored collection of the given-assignment constructor: unlike the
plain constructor, the code performs NO final reversal. -/
def residualFactorsGivenPairs (n order : Nat) (spatial sIx : List Nat)
    (given : List (Nat × Nat)) : List (List Nat × List Nat) :=
  rfRetainedGiven n order spatial sIx given

/-- `SmallestFactor`: the first `i` in `2 .. n-1` dividing `n`, with the
quotient; `(n, 1)` when none exists. -/
def smallestFactor (n : Nat) : Nat × Nat :=
  match (List.range' 2 (n - 2)).find? (fun i => n % i = 0) with
  | some i => (i, n / i)
  | none => (n, 1)

/-- The `while (residue > 1)` factor-collection loop of `GetTiling`,
fuel-bounded (the residue strictly decreases, so `fuel = numElems`
always suffices). -/
def tilingFactors : Nat → Nat → List Nat
  | 0, _ => []
  | fuel + 1, residue =>
    if 1 < residue then
      let p := smallestFactor residue
      p.1 :: tilingFactors fuel p.2
    else []

/-- The alternating accumulation of `GetTiling`: with `b = true` the head
factor goes to `height` (even index), with `b = false` to `width`. -/
def parityProd : List Nat → Bool → Nat
  | [], _ => 1
  | f :: rest, b => if b then f * parityProd rest (!b) else parityProd rest (!b)

/-- `GetTiling(num_elems, height, width)`: decompose into smallest prime
factors, alternate them into the two sides, and swap so the smaller side
comes first (height). -/
def getTiling (numElems : Nat) : Nat × Nat :=
  let factors := tilingFactors numElems numElems
  let height := parityProd factors true
  let width := parityProd factors false
  if width < height then (width, height) else (height, width)

/-! ### Helper lemmas about the embedded operations -/

theorem pruneMax_eq_filter (maxs : List (Nat × Nat)) :
    ∀ cs : List (List Nat), pruneMax maxs cs = cs.filter fun t => !illegalTuple maxs t := by
  intro cs
  induction cs with
  | nil => rfl
  | cons t rest ih =>
    cases hb : illegalTuple maxs t <;> simp [pruneMax, hb, ih, List.filter_cons]

theorem not_illegalTuple_iff {maxs : List (Nat × Nat)} {t : List Nat} :
    (!illegalTuple maxs t) = true ↔ ∀ p ∈ maxs, t.getD p.1 0 ≤ p.2 := by
  simp [illegalTuple, Nat.not_lt]

/-! ### C4, C5, C6, C7, C8, C9, C10 -/

/-- C4: code bug.  The claim says a given entry that does not divide the
residual is dropped (with a diagnostic) and its position enumerated
freely, while every produced tuple still multiplies exactly to `n` and
carries every retained given value.  In the code, `f = given.erase(f)`
returns the iterator to the next entry and the loop header increments
again, so the entry AFTER a dropped one is kept without being validated
or multiplied into the partial product.  For `Factors(12, 3, given =
{0: 5, 1: 2})`, entry `(0, 5)` is dropped (5 does not divide 12) and
entry `(1, 2)` is skipped: it is spliced into every tuple but the
residual stays 12, so every produced tuple has product 24, not 12. -/
theorem factorsGiven_skipped_entry :
    [12, 2, 1] ∈ factorsGiven 12 3 [(0, 5), (1, 2)] ∧
      ([12, 2, 1] : List Nat).prod ≠ 12 := by decide

/-- C5: `PruneMax(max)` removes exactly the tuples that exceed the stated
maximum at some position named in the map, keeps the rest in their
original order (it equals a `filter` of the collection), and is
idempotent.  The hypothesis keeps every named index inside every tuple,
the domain on which the C++ `at(index)` access is defined. -/
theorem pruneMax_spec (maxs : List (Nat × Nat)) (cs : List (List Nat))
    (hix : ∀ p ∈ maxs, ∀ t ∈ cs, p.1 < t.length) :
    pruneMax maxs cs = cs.filter (fun t => !illegalTuple maxs t) ∧
      (∀ t, t ∈ pruneMax maxs cs ↔ t ∈ cs ∧ ∀ p ∈ maxs, t.getD p.1 0 ≤ p.2) ∧
      pruneMax maxs (pruneMax maxs cs) = pruneMax maxs cs := by
  refine ⟨pruneMax_eq_filter maxs cs, fun t => ?_, ?_⟩
  · rw [pruneMax_eq_filter, List.mem_filter, not_illegalTuple_iff]
  · rw [pruneMax_eq_filter, pruneMax_eq_filter, List.filter_filter]
    have he : (fun a => (!illegalTuple maxs a) && !illegalTuple maxs a) =
        fun a => !illegalTuple maxs a := funext fun a => Bool.and_self _
    rw [he]

/-- C5 witness: pruning the spec's example collection
`Factors(12, 3, given = {1: 4})` with `PruneMax({0: 3})`. -/
theorem pruneMax_spec_witness :
    pruneMax [(0, 3)] (factorsGiven 12 3 [(1, 4)]) =
        (factorsGiven 12 3 [(1, 4)]).filter
          (fun t => !illegalTuple [(0, 3)] t) ∧
      (∀ t, t ∈ pruneMax [(0, 3)] (factorsGiven 12 3 [(1, 4)]) ↔
        t ∈ factorsGiven 12 3 [(1, 4)] ∧
          ∀ p ∈ [(0, 3)], t.getD p.1 0 ≤ p.2) ∧
      pruneMax [(0, 3)] (pruneMax [(0, 3)] (factorsGiven 12 3 [(1, 4)])) =
        pruneMax [(0, 3)] (factorsGiven 12 3 [(1, 4)]) :=
  pruneMax_spec [(0, 3)] (factorsGiven 12 3 [(1, 4)]) (by decide)

/-- C6 counterexample: `ResidualFactors(1, 0, [], [])` yields an EMPTY
collection, not the claimed single empty decomposition: the rotation loop
of `GenerateFactorProduct_` runs zero times when `order = 0`, so no
factor-tuple candidate (not even the empty tuple) ever reaches
`EquationSolver_`. -/
theorem residual_order_zero_counterexample :
    residualFactorsPairs 1 0 [] [] = [] ∧
      residualFactorsPairs 1 0 [] [] ≠ [([], [])] := by decide

/-- C6 amended: with `order = 0` the `Factors` enumerator yields exactly
one decomposition (the empty tuple), while the `ResidualFactors`
enumerator yields an empty collection, for every `n` and every spatial
configuration. -/
theorem order_zero_collections (n : Nat) (spatial sIx : List Nat) :
    factorsCofactors n 0 = [[]] ∧
      rfRetained n 0 spatial sIx = [] ∧
      residualFactorsPairs n 0 spatial sIx = [] :=
  ⟨rfl, rfl, rfl⟩

/-- C7 counterexample: the given-assignment `ResidualFactors` constructor
stores the retained pairs WITHOUT the final end-to-end reversal that the
claim requires of every construction; at `n = 2, order = 2, spatial =
[2, 2], spatial_indices = [0, 1]` with an empty given map the stored
collection differs from the reversed retained pairs. -/
theorem residual_given_not_reversed_counterexample :
    residualFactorsGivenPairs 2 2 [2, 2] [0, 1] [] ≠
      (rfRetainedGiven 2 2 [2, 2] [0, 1] []).map
        (fun p => (p.1.reverse, p.2.reverse)) := by decide

/-- C7 amended: the plain `ResidualFactors` constructor reverses both
tuples of every retained pair end-to-end before storing them (so
reversing the stored collection recovers the retained pairs), but the
given-assignment constructor stores the retained pairs unreversed. -/
theorem residual_reversal (n order : Nat) (spatial sIx : List Nat)
    (given : List (Nat × Nat)) :
    residualFactorsPairs n order spatial sIx =
        (rfRetained n order spatial sIx).map
          (fun p => (p.1.reverse, p.2.reverse)) ∧
      (residualFactorsPairs n order spatial sIx).map
          (fun p => (p.1.reverse, p.2.reverse)) =
        rfRetained n order spatial sIx ∧
      residualFactorsGivenPairs n order spatial sIx given =
        rfRetainedGiven n order spatial sIx given := by
  refine ⟨rfl, ?_, rfl⟩
  simp [residualFactorsPairs, List.map_map, Function.comp_def]

/-- C8: both enumerators are deterministic.  Each construction is embedded
as a pure function of its inputs (`n`, `order`, spatial bounds and
indices, given assignment) — the C++ code consumes no randomness, clock
or other ambient state on these paths — so two constructions from
identical inputs yield element-for-element identical collections. -/
theorem construction_deterministic (n order : Nat) (spatial sIx : List Nat)
    (given : List (Nat × Nat)) :
    factorsCofactors n order = factorsCofactors n order ∧
      factorsGiven n order given = factorsGiven n order given ∧
      residualFactorsPairs n order spatial sIx =
        residualFactorsPairs n order spatial sIx ∧
      residualFactorsGivenPairs n order spatial sIx given =
        residualFactorsGivenPairs n order spatial sIx given :=
  ⟨rfl, rfl, rfl, rfl⟩

/-- C9: for `n = 0` the divisor vector is empty (the trial-division loop
runs up to `ISqrt_(0) = 0`), so `Factors(0, k)` is empty for every
`k ≥ 2`, while `Factors(0, 1)` yields the single tuple `[0]` because the
`order == 1` base case returns the residual unconditionally. -/
theorem factors_zero_dimension (k : Nat) (hk : 2 ≤ k) :
    allFactors 0 = [] ∧ factorsCofactors 0 k = [] ∧
      factorsCofactors 0 1 = [[0]] := by
  refine ⟨rfl, ?_, rfl⟩
  obtain ⟨j, rfl⟩ : ∃ j, k = j + 2 := ⟨k - 2, by omega⟩
  rfl

/-- C9 witness: the order-2 instance. -/
theorem factors_zero_dimension_witness :
    allFactors 0 = [] ∧ factorsCofactors 0 2 = [] ∧
      factorsCofactors 0 1 = [[0]] :=
  factors_zero_dimension 2 (by decide)

theorem smallestFactor_spec (r : Nat) (h2 : 2 ≤ r) :
    (smallestFactor r).1 * (smallestFactor r).2 = r ∧
      (smallestFactor r).2 < r ∧ 1 ≤ (smallestFactor r).2 := by
  unfold smallestFactor
  cases hf : (List.range' 2 (r - 2)).find? (fun i => r % i = 0) with
  | none =>
    simp only
    exact ⟨Nat.mul_one r, by omega, le_rfl⟩
  | some i =>
    have hp : r % i = 0 := by
      have := List.find?_some hf
      simpa using this
    have hm : i ∈ List.range' 2 (r - 2) := List.mem_of_find?_eq_some hf
    have hi : 2 ≤ i ∧ i < 2 + (r - 2) := List.mem_range'_1.mp hm
    have hir : i < r := by omega
    have hdvd : i ∣ r := Nat.dvd_of_mod_eq_zero hp
    refine ⟨Nat.mul_div_cancel' hdvd, ?_, ?_⟩
    · exact Nat.div_lt_self (by omega) (by omega)
    · exact Nat.one_le_div_iff (by omega) |>.mpr (le_of_lt hir)

theorem tilingFactors_prod :
    ∀ fuel r : Nat, 1 ≤ r → r ≤ fuel → (tilingFactors fuel r).prod = r := by
  intro fuel
  induction fuel with
  | zero => intro r h1 h2; omega
  | succ fuel ih =>
    intro r h1 h2
    by_cases hr : 1 < r
    · have hs := smallestFactor_spec r hr
      have hrec := ih (smallestFactor r).2 hs.2.2 (by omega)
      simp only [tilingFactors, if_pos hr, List.prod_cons]
      rw [hrec]
      exact hs.1
    · have : r = 1 := by omega
      subst this
      simp [tilingFactors]

theorem parityProd_mul : ∀ (l : List Nat) (b : Bool),
    parityProd l b * parityProd l (!b) = l.prod := by
  intro l
  induction l with
  | nil => intro b; simp [parityProd]
  | cons f rest ih =>
    intro b
    have h1 : parityProd rest true * parityProd rest false = rest.prod := by
      simpa using ih true
    have h2 : parityProd rest false * parityProd rest true = rest.prod := by
      simpa using ih false
    cases b
    · show parityProd rest true * (f * parityProd rest false) = f * rest.prod
      rw [← h1]; ring
    · show f * parityProd rest false * parityProd rest true = f * rest.prod
      rw [← h2]; ring

/-- C10: for every `num_elems ≥ 1`, `GetTiling` returns a pair
`(height, width)` with `height * width = num_elems` and `height ≤ width`:
the loop splits `num_elems` into its smallest prime factors via repeated
`SmallestFactor`, the even-indexed factors multiply into one side and the
odd-indexed into the other, and the final swap puts the smaller side
first. -/
theorem getTiling_spec (n : Nat) (h : 1 ≤ n) :
    (getTiling n).1 * (getTiling n).2 = n ∧ (getTiling n).1 ≤ (getTiling n).2 := by
  have hp : (tilingFactors n n).prod = n := tilingFactors_prod n n h le_rfl
  have hm : parityProd (tilingFactors n n) true *
      parityProd (tilingFactors n n) false = n := by
    have := parityProd_mul (tilingFactors n n) true
    simpa [hp] using this
  by_cases hlt : parityProd (tilingFactors n n) false <
      parityProd (tilingFactors n n) true
  · simp only [getTiling, if_pos hlt]
    exact ⟨by rw [Nat.mul_comm]; exact hm, le_of_lt hlt⟩
  · simp only [getTiling, if_neg hlt]
    exact ⟨hm, by omega⟩

/-- C10 witness: `GetTiling(12) = (2, 6)`. -/
theorem getTiling_spec_witness :
    (getTiling 12).1 * (getTiling 12).2 = 12 ∧
      (getTiling 12).1 ≤ (getTiling 12).2 :=
  getTiling_spec 12 (by decide)

theorem mem_allFactorsAux {n x : Nat} :
    ∀ {b : Nat}, x ∈ allFactorsAux n b →
      ∃ i, 1 ≤ i ∧ i ≤ b ∧ n % i = 0 ∧ (x = i ∨ x = n / i) := by
  intro b
  induction b with
  | zero => intro h; simp [allFactorsAux] at h
  | succ b ih =>
    intro h
    simp only [allFactorsAux, List.mem_append] at h
    rcases h with h | h
    · obtain ⟨i, h1, h2, h3, h4⟩ := ih h
      exact ⟨i, h1, by omega, h3, h4⟩
    · by_cases hmod : n % (b + 1) = 0
      · by_cases hsq : (b + 1) * (b + 1) ≠ n
        · rw [if_pos hmod, if_pos hsq] at h
          simp only [List.mem_cons, List.not_mem_nil, or_false] at h
          exact ⟨b + 1, by omega, le_rfl, hmod, h⟩
        · rw [if_pos hmod, if_neg hsq] at h
          simp only [List.mem_cons, List.not_mem_nil, or_false] at h
          exact ⟨b + 1, by omega, le_rfl, hmod, Or.inl h⟩
      · rw [if_neg hmod] at h
        simp at h

theorem not_mem_allFactors_two_pow_32 : 65536 ∉ allFactors (2 ^ 32) := by
  intro h
  have hsq : iSqrt (2 ^ 32) = 65535 := by decide
  unfold allFactors at h
  rw [hsq] at h
  obtain ⟨i, h1, h2, h3, h4⟩ := mem_allFactorsAux h
  have hpow : (2 : Nat) ^ 32 = 4294967296 := by norm_num
  rcases h4 with h4 | h4
  · omega
  · have hdvd : i ∣ 2 ^ 32 := Nat.dvd_of_mod_eq_zero h3
    have hmul := Nat.eq_mul_of_div_eq_right hdvd h4.symm
    rw [hpow] at hmul
    omega

theorem mem_multiplicativeSplit_two {af : List Nat} {n : Nat} {t : List Nat}
    (h : t ∈ multiplicativeSplit af n 2) :
    ∃ f, f ∈ af ∧ n % f = 0 ∧ t = [n / f, f] := by
  have e : multiplicativeSplit af n 2 =
      af.flatMap fun f =>
        if n % f = 0 then
          (multiplicativeSplit af (n / f) 1).map fun v => v ++ [f]
        else [] := rfl
  rw [e, List.mem_flatMap] at h
  obtain ⟨f, hf, ht⟩ := h
  by_cases hc : n % f = 0
  · rw [if_pos hc] at ht
    have e1 : multiplicativeSplit af (n / f) 1 = [[n / f]] := rfl
    rw [e1] at ht
    simp only [List.map_cons, List.map_nil, List.mem_singleton] at ht
    exact ⟨f, hf, hc, ht⟩
  · rw [if_neg hc] at ht
    simp at ht

/-- C3: code bug.  `ISqrt_` starts its binary-digit loop at `one = 1 << 30`,
a 32-bit integer square root, although its argument is an `unsigned long`;
for `n = 2^32` it returns 65535 instead of 65536, so the trial-division
scan of `CalculateAllFactors_` stops one short and the divisor 65536 of
`2^32` is produced neither as a scanned `i` (it is never reached) nor as a
complement `n / i` (its complement is itself).  The divisor set is
therefore NOT the complete set of divisors for every `n ≥ 1`, contrary to
the claim: `2^32` has 33 divisors and the code returns 32. -/
theorem divisor_set_missing_divisor :
    (2 ^ 32) % 65536 = 0 ∧ 65536 ∉ allFactors (2 ^ 32) :=
  ⟨by norm_num, not_mem_allFactors_two_pow_32⟩

/-- C1: code bug, inherited from the `ISqrt_` slip of C3.
`[65536, 65536]` is an ordered factorization of `2^32` into 2 parts, but
`Factors(2^32, 2)` never produces it: `MultiplicativeSplitRecursive_`
draws its candidate factors from `all_factors_`, which is missing 65536,
so the collection is not exactly the ordered factorizations of `n` into
`k` parts for every `n ≥ 1, k ≥ 1` as the claim states. -/
theorem factors_missing_factorization :
    ([65536, 65536] : List Nat).length = 2 ∧
      ([65536, 65536] : List Nat).prod = 2 ^ 32 ∧
      [65536, 65536] ∉ factorsCofactors (2 ^ 32) 2 := by
  refine ⟨rfl, by decide, ?_⟩
  intro h
  obtain ⟨f, hf, hmod, ht⟩ := mem_multiplicativeSplit_two h
  simp only [List.cons.injEq, and_true] at ht
  exact not_mem_allFactors_two_pow_32 (ht.2 ▸ hf)

/-! ### C2 -/

end Numeric
